import Mathlib

/-!
Shallow embedding of the 8-K filings EPS parser (src/8K_Parser.py) and proofs
about its extraction, resolution and output-formatting behaviour.

The Python module works over strings with the re module.  The embedding
implements the exact backtracking semantics of the regular-expression
constructs the six patterns use (case-insensitive literals, ordered
alternation, greedy and lazy quantifiers over character classes, one capture
group, and re.findall's leftmost non-overlapping scan), numbers as exact
rationals, Python dictionaries as insertion-ordered association lists, and the
CSV writer as a list of rows.
-/

/-- Character classes occurring in the source patterns: Python's backslash-s,
backslash-d, and the dot (any character except a newline). -/
inductive CC where
  | space : CC
  | digit : CC
  | dotAny : CC

/-- Membership test of a character class, matching Python's ASCII behaviour on
the texts considered here. -/
def CC.test : CC → Char → Bool
  | .space, c => c = ' ' || c = '\t' || c = '\n' || c = '\r' || c = Char.ofNat 11 || c = Char.ofNat 12
  | .digit, c => c.isDigit
  | .dotAny, c => c != '\n'

/-- Abstract syntax of the regular-expression fragment used by the six
patterns of extract_eps_value.  Stars and pluses only ever apply to a single
character class in the source patterns, which keeps the matcher structurally
recursive. -/
inductive Re where
  | epsR : Re
  | lit : Char → Re
  | cls : CC → Re
  | seq : Re → Re → Re
  | alt : Re → Re → Re
  | opt : Re → Re
  | starCls : CC → Re
  | lazyCls : CC → Re
  | plusCls : CC → Re
  | group : Re → Re

/-- Greedy star over a character class in continuation-passing style: longer
consumptions are tried first, exactly as Python's backtracking does. -/
def starRun (cc : CC) (k : List Char → Option (List Char × List Char)) :
    List Char → Option (List Char × List Char)
  | [] => k []
  | c :: cs =>
    if cc.test c then (starRun cc k cs) <|> k (c :: cs) else k (c :: cs)

/-- Lazy star over a character class: shorter consumptions are tried first,
exactly as Python's lazy quantifier does. -/
def lazyRun (cc : CC) (k : List Char → Option (List Char × List Char)) :
    List Char → Option (List Char × List Char)
  | [] => k []
  | c :: cs =>
    k (c :: cs) <|> (if cc.test c then lazyRun cc k cs else none)

/-- Backtracking matcher.  The continuation receives the remaining input and
the text consumed by the capture group (the patterns have exactly one).
Literals compare case-insensitively, modelling re.IGNORECASE. -/
def reRun : Re → List Char → Option (List Char) →
    (List Char → Option (List Char) → Option (List Char × List Char)) →
    Option (List Char × List Char)
  | .epsR, l, cap, k => k l cap
  | .lit _, [], _, _ => none
  | .lit c, x :: xs, cap, k => if x.toLower = c.toLower then k xs cap else none
  | .cls _, [], _, _ => none
  | .cls cc, x :: xs, cap, k => if cc.test x then k xs cap else none
  | .seq a b, l, cap, k => reRun a l cap (fun l2 cap2 => reRun b l2 cap2 k)
  | .alt a b, l, cap, k => (reRun a l cap k) <|> (reRun b l cap k)
  | .opt a, l, cap, k => (reRun a l cap k) <|> k l cap
  | .starCls cc, l, cap, k => starRun cc (fun l2 => k l2 cap) l
  | .lazyCls cc, l, cap, k => lazyRun cc (fun l2 => k l2 cap) l
  | .plusCls _, [], _, _ => none
  | .plusCls cc, x :: xs, cap, k =>
    if cc.test x then starRun cc (fun l2 => k l2 cap) xs else none
  | .group a, l, _, k =>
    reRun a l none (fun l2 _ => k l2 (some (l.take (l.length - l2.length))))

/-- Attempt a match anchored at the start of the input, returning the capture
and the input remaining after the whole match. -/
def tryMatch (r : Re) (l : List Char) : Option (List Char × List Char) :=
  reRun r l none (fun rest cap =>
    match cap with
    | some c => some (c, rest)
    | none => none)

/-- Scanner of re.findall: try a match at the current position, emit its
capture and resume after the match (one character further for a width-zero
match), otherwise advance one character.  The fuel argument is the input
length plus one, which the scan can never exhaust. -/
def findallGo (r : Re) : Nat → List Char → List (List Char)
  | 0, _ => []
  | _ + 1, [] =>
    match tryMatch r [] with
    | some (c, _) => [c]
    | none => []
  | fuel + 1, x :: xs =>
    match tryMatch r (x :: xs) with
    | some (c, rest) =>
      c :: findallGo r fuel (if rest.length < (x :: xs).length then rest else xs)
    | none => findallGo r fuel xs

/-- All group-1 captures of the leftmost non-overlapping matches of a pattern,
as re.findall returns them. -/
def refindall (r : Re) (l : List Char) : List (List Char) :=
  findallGo r (l.length + 1) l

/-- Sequence of case-insensitive literal characters. -/
def rstr (s : String) : Re :=
  s.data.foldr (fun c r => Re.seq (Re.lit c) r) Re.epsR

/-- The backslash-s-star piece of the patterns. -/
def wsStar : Re := Re.starCls CC.space

/-- The lazy dot-star piece of the patterns. -/
def anyLazy : Re := Re.lazyCls CC.dotAny

/-- The capture group shared by all six patterns: an optional minus sign,
digits, and an optional fractional part. -/
def numGroup : Re :=
  Re.group (Re.seq (Re.opt (Re.lit '-'))
    (Re.seq (Re.plusCls CC.digit)
      (Re.opt (Re.seq (Re.lit '.') (Re.plusCls CC.digit)))))

/-- Common tail of the patterns: whitespace, a lazy gap, then the number. -/
def tailNum : Re := Re.seq wsStar (Re.seq anyLazy numGroup)

/-- Optional "common" word with trailing whitespace. -/
def commonOpt : Re := Re.opt (Re.seq (rstr "common") wsStar)

/-- The "Earnings per (common) share" phrase. -/
def earningsShare : Re :=
  Re.seq (rstr "Earnings") (Re.seq wsStar (Re.seq (rstr "per")
    (Re.seq wsStar (Re.seq commonOpt (rstr "share")))))

/-- The "Loss per (common) share" phrase. -/
def lossShare : Re :=
  Re.seq (rstr "Loss") (Re.seq wsStar (Re.seq (rstr "per")
    (Re.seq wsStar (Re.seq commonOpt (rstr "share")))))

/-- Optional "cents" or "cents per share" suffix of the second and third
patterns. -/
def centsSuffix : Re :=
  Re.opt (Re.seq wsStar (Re.alt (rstr "cents")
    (Re.seq (rstr "cents") (Re.seq wsStar (Re.seq (rstr "per") (Re.seq wsStar (rstr "share")))))))

/-- First source pattern: EPS followed by a number. -/
def pat1 : Re := Re.seq (rstr "EPS") tailNum

/-- Second source pattern: earnings per (common) share variants. -/
def pat2 : Re := Re.seq (Re.seq earningsShare tailNum) centsSuffix

/-- Third source pattern: loss per (common) share variants. -/
def pat3 : Re := Re.seq (Re.seq lossShare tailNum) centsSuffix

/-- Fourth source pattern: earnings, diluted, basic or eps, optionally
followed by per (common) share, then a number. -/
def pat4 : Re :=
  Re.seq (Re.alt (rstr "earnings") (Re.alt (rstr "diluted") (Re.alt (rstr "basic") (rstr "eps"))))
    (Re.seq wsStar (Re.seq (Re.opt (Re.seq (rstr "per") (Re.seq wsStar (Re.seq commonOpt (rstr "share")))))
      tailNum))

/-- Fifth source pattern: loss per share followed by a number. -/
def pat5 : Re :=
  Re.seq (rstr "loss") (Re.seq wsStar (Re.seq (rstr "per") (Re.seq wsStar (Re.seq (rstr "share") tailNum))))

/-- Sixth source pattern: EPS, earnings per (common) share or loss per
(common) share, followed by a number. -/
def pat6 : Re := Re.seq (Re.alt (rstr "EPS") (Re.alt earningsShare lossShare)) tailNum

/-- The ordered pattern list of extract_eps_value. -/
def eps_patterns : List Re := [pat1, pat2, pat3, pat4, pat5, pat6]

/-- Numeric value of a decimal digit character. -/
def digitVal (c : Char) : Nat := c.toNat - 48

/-- Value of a string of decimal digits. -/
def digitsVal (l : List Char) : Nat :=
  l.foldl (fun acc c => 10 * acc + digitVal c) 0

/-- Value of an unsigned decimal numeral with an optional fractional part,
built with mkRat so that concrete evaluation stays within core rational
arithmetic. -/
def pyFloatPos (s : List Char) : ℚ :=
  match s.dropWhile (fun c => c ≠ '.') with
  | _ :: frac =>
    mkRat (digitsVal (s.takeWhile (fun c => c ≠ '.')) * 10 ^ frac.length + digitsVal frac)
      (10 ^ frac.length)
  | [] => mkRat (digitsVal s) 1

/-- Python's float() on the numerals the capture group produces, as an exact
rational. -/
def pyFloat (s : List Char) : ℚ :=
  match s with
  | '-' :: rest => - pyFloatPos rest
  | _ => pyFloatPos s

/-- The normalization of line 35 of the source: the opening parenthesis is
replaced by a minus sign and the closing parenthesis discarded before the
numeral is parsed. -/
def normalizeMatch (m : List Char) : List Char :=
  (m.map (fun c => if c = '(' then '-' else c)).filter (fun c => c ≠ ')')

/-- All numeric candidates the pattern loop of extract_eps_value produces, in
the order the source appends them. -/
def epsCandidates (text : String) : List ℚ :=
  (eps_patterns.map (fun p => (refindall p text.data).map (fun m => pyFloat (normalizeMatch m)))).flatten

/-- The positive_eps_values list of the source: candidates at least zero, in
extraction order. -/
def positive_eps_values (text : String) : List ℚ :=
  (epsCandidates text).filter (fun v => decide (0 ≤ v))

/-- The negative_eps_values list of the source: candidates below zero, in
extraction order. -/
def negative_eps_values (text : String) : List ℚ :=
  (epsCandidates text).filter (fun v => decide (v < 0))

/-- Python's min over a nonempty list given as head and tail. -/
def pymin (x : ℚ) (xs : List ℚ) : ℚ := xs.foldl min x

/-- Python's max over a nonempty list given as head and tail. -/
def pymax (x : ℚ) (xs : List ℚ) : ℚ := xs.foldl max x

/-- The extractor of the source: collect candidates, split them by sign, and
reduce with the closest-to-zero policy of lines 41 to 53. -/
def extract_eps_value (text : String) : Option ℚ :=
  match positive_eps_values text, negative_eps_values text with
  | p :: ps, n :: ns =>
    if |pymin p ps| < |pymax n ns| then some (pymin p ps) else some (pymax n ns)
  | p :: ps, [] => some (pymin p ps)
  | [], n :: ns => some (pymax n ns)
  | [], [] => none

/-- The per-document loop of parse_8k_files, over the (filename, text) pairs
the external input collaborator supplies: documents whose extraction is absent
contribute no observation. -/
def parse_8k_files : List (String × String) → List (String × ℚ)
  | [] => []
  | (filename, text) :: rest =>
    match extract_eps_value text with
    | some v => (filename, v) :: parse_8k_files rest
    | none => parse_8k_files rest

/-- Rounding to the nearest integer with ties to even, the rule of fixed-point
formatting.  The fractional part of x is written mkRat (x.num - floor x *
x.den) x.den, which equals x - floor x, so that concrete instances evaluate
inside core rational arithmetic. -/
def roundHalfEven (x : ℚ) : ℤ :=
  if mkRat (x.num - Rat.floor x * x.den) x.den < mkRat 1 2 then Rat.floor x
  else if mkRat 1 2 < mkRat (x.num - Rat.floor x * x.den) x.den then Rat.floor x + 1
  else if Rat.floor x % 2 = 0 then Rat.floor x else Rat.floor x + 1

/-- One hundred times a rational, written on its numerator so that concrete
instances evaluate inside core rational arithmetic. -/
def mul100 (q : ℚ) : ℚ := mkRat (100 * q.num) q.den

/-- Fixed two-decimal rendering of a nonnegative rational, the f-string
format .2f that write_to_csv applies to eps_value and abs(eps_value). -/
def formatFixed2 (q : ℚ) : String :=
  toString ((roundHalfEven (mul100 q)).toNat / 100) ++ "." ++
    String.mk [Nat.digitChar ((roundHalfEven (mul100 q)).toNat / 10 % 10),
               Nat.digitChar ((roundHalfEven (mul100 q)).toNat % 10)]

/-- The rows write_to_csv emits: a header row, then one row per mapping entry,
with negative values rendered as their absolute value in parentheses. -/
def write_to_csv (eps_values : List (String × ℚ)) : List (List String) :=
  ["Filename", "EPS"] ::
    eps_values.map (fun ob =>
      if 0 ≤ ob.2 then [ob.1, formatFixed2 ob.2]
      else [ob.1, "(" ++ formatFixed2 |ob.2| ++ ")"])

/-- Whether the first list occurs at the very start of the second. -/
def prefixEq : List Char → List Char → Bool
  | [], _ => true
  | _ :: _, [] => false
  | a :: as, b :: bs => a = b && prefixEq as bs

/-- Whether the first list occurs contiguously anywhere in the second, the
Python in operator on strings. -/
def containsSub (needle : List Char) : List Char → Bool
  | [] => prefixEq needle []
  | c :: cs => prefixEq needle (c :: cs) || containsSub needle cs

/-- Characters of a string lowercased, the Python lower method. -/
def lowerChars (s : String) : List Char :=
  s.data.map Char.toLower

/-- The guard of line 131 of the source: whether the lowercased stringified
value contains "net eps" or "total eps". -/
def deadGuard (s : String) : Bool :=
  containsSub ("net eps").data (lowerChars s) || containsSub ("total eps").data (lowerChars s)

/-- The update applied to an already-stored value by one observation, lines
121 to 135 of the source.  The stringification of a float is a Python builtin
and is passed in abstractly as pyStr; every theorem that depends on it only
assumes its output never contains a space, which is true of Python's str on
every float. -/
def prioritize_step (pyStr : ℚ → String) (current_value eps_value : ℚ) : ℚ :=
  if 0 ≤ eps_value ∧ current_value < 0 then eps_value
  else if |eps_value| < |current_value| then eps_value
  else if 0 ≤ eps_value ∧ 0 ≤ current_value then min current_value eps_value
  else if deadGuard (pyStr eps_value) then eps_value
  else if eps_value < 0 ∧ 0 ≤ current_value then eps_value
  else current_value

/-- Lookup in a Python dictionary modelled as an insertion-ordered association
list. -/
def dictGet? : List (String × ℚ) → String → Option ℚ
  | [], _ => none
  | (k, v) :: rest, key => if k = key then some v else dictGet? rest key

/-- Assignment in a Python dictionary: an existing key keeps its position and
gets the new value, a new key is appended. -/
def dictInsert : List (String × ℚ) → String → ℚ → List (String × ℚ)
  | [], key, v => [(key, v)]
  | (k, w) :: rest, key, v =>
    if k = key then (k, v) :: rest else (k, w) :: dictInsert rest key v

/-- Processing of one observation by the loop of prioritize_eps_values: an
unseen filename stores its value, a seen one is updated by prioritize_step. -/
def resolveObs (pyStr : ℚ → String) (d : List (String × ℚ)) (ob : String × ℚ) :
    List (String × ℚ) :=
  match dictGet? d ob.1 with
  | none => dictInsert d ob.1 ob.2
  | some current_value => dictInsert d ob.1 (prioritize_step pyStr current_value ob.2)

/-- The resolver of the source: a left-to-right fold of the observations into
a dictionary. -/
def prioritize_eps_values (pyStr : ℚ → String) (eps_values : List (String × ℚ)) :
    List (String × ℚ) :=
  eps_values.foldl (resolveObs pyStr) []

/-- Resolver update rules exactly as the specification lists them in section
4.2, rules 1 to 5, without the dead branch. -/
def resolveSpecStep (current value : ℚ) : ℚ :=
  if 0 ≤ value ∧ current < 0 then value
  else if |value| < |current| then value
  else if 0 ≤ value ∧ 0 ≤ current then min current value
  else if value < 0 ∧ 0 ≤ current then value
  else current

/-- One observation step of the resolver as the specification describes it. -/
def resolveSpecObs (d : List (String × ℚ)) (ob : String × ℚ) : List (String × ℚ) :=
  match dictGet? d ob.1 with
  | none => dictInsert d ob.1 ob.2
  | some current => dictInsert d ob.1 (resolveSpecStep current ob.2)

/-- The resolver fold as the specification describes it. -/
def resolveSpec (obs : List (String × ℚ)) : List (String × ℚ) :=
  obs.foldl resolveSpecObs []

/-- A concrete space-free stringification of rationals, standing in for
Python's str when a theorem with the no-space hypothesis is instantiated. -/
def strModel (q : ℚ) : String := toString q.num ++ "/" ++ toString q.den

theorem pymin_cons (p q : ℚ) (qs : List ℚ) : pymin p (q :: qs) = pymin (min p q) qs := rfl

theorem pymax_cons (n m : ℚ) (ms : List ℚ) : pymax n (m :: ms) = pymax (max n m) ms := rfl

theorem pymin_mem : ∀ (ps : List ℚ) (p : ℚ), pymin p ps ∈ p :: ps := by
  intro ps
  induction ps with
  | nil => intro p; simp [pymin]
  | cons q qs ih =>
    intro p
    rw [pymin_cons]
    rcases List.mem_cons.mp (ih (min p q)) with h1 | h1
    · rw [h1]
      rcases min_choice p q with hm | hm <;> rw [hm] <;> simp
    · exact List.mem_cons_of_mem _ (List.mem_cons_of_mem _ h1)

theorem pymin_le : ∀ (ps : List ℚ) (p : ℚ), ∀ x ∈ p :: ps, pymin p ps ≤ x := by
  intro ps
  induction ps with
  | nil =>
    intro p x hx
    rw [List.mem_singleton] at hx
    rw [hx]
    exact le_refl _
  | cons q qs ih =>
    intro p x hx
    rw [pymin_cons]
    have hhead : pymin (min p q) qs ≤ min p q := ih (min p q) (min p q) (List.mem_cons_self _ _)
    rcases List.mem_cons.mp hx with h1 | h1
    · rw [h1]
      exact hhead.trans (min_le_left p q)
    · rcases List.mem_cons.mp h1 with h2 | h2
      · rw [h2]
        exact hhead.trans (min_le_right p q)
      · exact ih (min p q) x (List.mem_cons_of_mem _ h2)

theorem pymax_mem : ∀ (ns : List ℚ) (n : ℚ), pymax n ns ∈ n :: ns := by
  intro ns
  induction ns with
  | nil => intro n; simp [pymax]
  | cons m ms ih =>
    intro n
    rw [pymax_cons]
    rcases List.mem_cons.mp (ih (max n m)) with h1 | h1
    · rw [h1]
      rcases max_choice n m with hm | hm <;> rw [hm] <;> simp
    · exact List.mem_cons_of_mem _ (List.mem_cons_of_mem _ h1)

theorem le_pymax : ∀ (ns : List ℚ) (n : ℚ), ∀ x ∈ n :: ns, x ≤ pymax n ns := by
  intro ns
  induction ns with
  | nil =>
    intro n x hx
    rw [List.mem_singleton] at hx
    rw [hx]
    exact le_refl _
  | cons m ms ih =>
    intro n x hx
    rw [pymax_cons]
    have hhead : max n m ≤ pymax (max n m) ms := ih (max n m) (max n m) (List.mem_cons_self _ _)
    rcases List.mem_cons.mp hx with h1 | h1
    · rw [h1]
      exact (le_max_left n m).trans hhead
    · rcases List.mem_cons.mp h1 with h2 | h2
      · rw [h2]
        exact (le_max_right n m).trans hhead
      · exact ih (max n m) x (List.mem_cons_of_mem _ h2)

theorem prefixEq_subset : ∀ (n hay : List Char), prefixEq n hay = true → ∀ c ∈ n, c ∈ hay := by
  intro n
  induction n with
  | nil => intro hay _ c hc; cases hc
  | cons a as ih =>
    intro hay hp c hc
    cases hay with
    | nil => simp [prefixEq] at hp
    | cons b bs =>
      rw [prefixEq, Bool.and_eq_true, decide_eq_true_eq] at hp
      rcases List.mem_cons.mp hc with h1 | h1
      · rw [h1, hp.1]
        exact List.mem_cons_self _ _
      · exact List.mem_cons_of_mem _ (ih bs hp.2 c h1)

theorem containsSub_subset :
    ∀ (hay n : List Char), containsSub n hay = true → ∀ c ∈ n, c ∈ hay := by
  intro hay
  induction hay with
  | nil =>
    intro n hp c hc
    cases n with
    | nil => cases hc
    | cons a as => simp [containsSub, prefixEq] at hp
  | cons b bs ih =>
    intro n hp c hc
    rw [containsSub, Bool.or_eq_true] at hp
    rcases hp with h1 | h1
    · exact prefixEq_subset n (b :: bs) h1 c hc
    · exact List.mem_cons_of_mem _ (ih n h1 c hc)

theorem deadGuard_eq_false (s : String) (h : ' ' ∉ lowerChars s) : deadGuard s = false := by
  have h1 : containsSub ("net eps").data (lowerChars s) = false := by
    rw [Bool.eq_false_iff]
    intro htrue
    exact h (containsSub_subset _ _ htrue ' ' (by decide))
  have h2 : containsSub ("total eps").data (lowerChars s) = false := by
    rw [Bool.eq_false_iff]
    intro htrue
    exact h (containsSub_subset _ _ htrue ' ' (by decide))
  rw [deadGuard, h1, h2]
  rfl

theorem prioritize_step_eq_spec (pyStr : ℚ → String) (cur v : ℚ)
    (h : ' ' ∉ lowerChars (pyStr v)) :
    prioritize_step pyStr cur v = resolveSpecStep cur v := by
  rw [prioritize_step, resolveSpecStep, deadGuard_eq_false _ h]
  simp

theorem foldl_resolveObs_eq_spec (pyStr : ℚ → String) :
    ∀ (obs d : List (String × ℚ)),
      (∀ ob ∈ obs, ' ' ∉ lowerChars (pyStr ob.2)) →
      obs.foldl (resolveObs pyStr) d = obs.foldl resolveSpecObs d := by
  intro obs
  induction obs with
  | nil => intro d _; rfl
  | cons ob rest ih =>
    intro d h
    have hob : ' ' ∉ lowerChars (pyStr ob.2) := h ob (List.mem_cons_self _ _)
    have hrest : ∀ p ∈ rest, ' ' ∉ lowerChars (pyStr p.2) :=
      fun p hp => h p (List.mem_cons_of_mem _ hp)
    rw [List.foldl_cons, List.foldl_cons]
    have hstep : resolveObs pyStr d ob = resolveSpecObs d ob := by
      rw [resolveObs, resolveSpecObs]
      cases dictGet? d ob.1 with
      | none => rfl
      | some cur =>
        show dictInsert d ob.1 (prioritize_step pyStr cur ob.2) =
          dictInsert d ob.1 (resolveSpecStep cur ob.2)
        rw [prioritize_step_eq_spec _ _ _ hob]
    rw [hstep]
    exact ih _ hrest

theorem dictGet?_dictInsert (d : List (String × ℚ)) (k key : String) (v : ℚ) :
    dictGet? (dictInsert d k v) key = if k = key then some v else dictGet? d key := by
  induction d with
  | nil =>
    rw [dictInsert, dictGet?]
    by_cases h : k = key <;> simp [h, dictGet?]
  | cons pr rest ih =>
    obtain ⟨k2, w⟩ := pr
    by_cases h : k2 = k
    · rw [dictInsert, if_pos h]
      by_cases h2 : k = key
      · rw [dictGet?, if_pos (h.trans h2), if_pos h2]
      · rw [dictGet?, if_neg (fun hc => h2 (h ▸ hc)), if_neg h2, dictGet?,
          if_neg (fun hc => h2 (h ▸ hc))]
    · rw [dictInsert, if_neg h, dictGet?, dictGet?]
      by_cases h2 : k2 = key
      · have hk : ¬ k = key := fun hc => h (by rw [h2, hc])
        rw [if_pos h2, if_neg hk, if_pos h2]
      · rw [if_neg h2, if_neg h2, ih]

theorem dictGet?_eq_none (d : List (String × ℚ)) (key : String) :
    dictGet? d key = none ↔ key ∉ d.map Prod.fst := by
  induction d with
  | nil => simp [dictGet?]
  | cons pr rest ih =>
    obtain ⟨k, v⟩ := pr
    rw [dictGet?, List.map_cons]
    by_cases h : k = key
    · rw [if_pos h]
      constructor
      · intro hc; cases hc
      · intro hc
        exfalso
        exact hc (by rw [h]; exact List.mem_cons_self _ _)
    · rw [if_neg h, ih]
      constructor
      · intro hc hmem
        rcases List.mem_cons.mp hmem with h1 | h1
        · exact h h1.symm
        · exact hc h1
      · intro hc hmem
        exact hc (List.mem_cons_of_mem _ hmem)

theorem keys_dictInsert_mem :
    ∀ (d : List (String × ℚ)) (k : String) (v : ℚ),
      k ∈ d.map Prod.fst → (dictInsert d k v).map Prod.fst = d.map Prod.fst := by
  intro d
  induction d with
  | nil => intro k v hk; cases hk
  | cons pr rest ih =>
    intro k v hk
    obtain ⟨k2, w⟩ := pr
    by_cases h : k2 = k
    · simp [dictInsert, h]
    · have hk2 : k ∈ rest.map Prod.fst := by
        rcases List.mem_cons.mp hk with h1 | h1
        · exact absurd h1.symm h
        · exact h1
      simp [dictInsert, h, ih _ v hk2]

theorem keys_dictInsert_not_mem :
    ∀ (d : List (String × ℚ)) (k : String) (v : ℚ),
      k ∉ d.map Prod.fst →
      (dictInsert d k v).map Prod.fst = d.map Prod.fst ++ [k] := by
  intro d
  induction d with
  | nil => intro k v _; simp [dictInsert]
  | cons pr rest ih =>
    intro k v hk
    obtain ⟨k2, w⟩ := pr
    have h : k2 ≠ k := fun hc => hk (by simp [hc])
    have hk2 : k ∉ rest.map Prod.fst := fun hc => hk (List.mem_cons_of_mem _ hc)
    simp [dictInsert, h, ih _ v hk2]

theorem keys_resolveObs (pyStr : ℚ → String) (d : List (String × ℚ)) (ob : String × ℚ) :
    (resolveObs pyStr d ob).map Prod.fst =
      if ob.1 ∈ d.map Prod.fst then d.map Prod.fst else d.map Prod.fst ++ [ob.1] := by
  rw [resolveObs]
  cases hg : dictGet? d ob.1 with
  | none =>
    have hmem : ob.1 ∉ d.map Prod.fst := (dictGet?_eq_none _ _).mp hg
    rw [if_neg hmem, keys_dictInsert_not_mem _ _ _ hmem]
  | some cur =>
    have hmem : ob.1 ∈ d.map Prod.fst := by
      by_contra hn
      rw [(dictGet?_eq_none _ _).mpr hn] at hg
      cases hg
    rw [if_pos hmem, keys_dictInsert_mem _ _ _ hmem]

theorem foldl_resolveObs_keys (pyStr : ℚ → String) :
    ∀ (obs d : List (String × ℚ)), (d.map Prod.fst).Nodup →
      ((obs.foldl (resolveObs pyStr) d).map Prod.fst).Nodup ∧
        ∀ key : String, key ∈ (obs.foldl (resolveObs pyStr) d).map Prod.fst ↔
          (key ∈ d.map Prod.fst ∨ key ∈ obs.map Prod.fst) := by
  intro obs
  induction obs with
  | nil => intro d hd; exact ⟨hd, fun key => by simp⟩
  | cons ob rest ih =>
    intro d hd
    have hkeys := keys_resolveObs pyStr d ob
    by_cases hmem : ob.1 ∈ d.map Prod.fst
    · rw [if_pos hmem] at hkeys
      have hd' : ((resolveObs pyStr d ob).map Prod.fst).Nodup := by rw [hkeys]; exact hd
      obtain ⟨h1, h2⟩ := ih (resolveObs pyStr d ob) hd'
      rw [List.foldl_cons]
      refine ⟨h1, fun key => ?_⟩
      rw [h2 key, hkeys, List.map_cons, List.mem_cons]
      constructor
      · intro hh
        rcases hh with hh | hh
        · exact Or.inl hh
        · exact Or.inr (Or.inr hh)
      · intro hh
        rcases hh with hh | hh | hh
        · exact Or.inl hh
        · rw [hh]; exact Or.inl hmem
        · exact Or.inr hh
    · rw [if_neg hmem] at hkeys
      have hd' : ((resolveObs pyStr d ob).map Prod.fst).Nodup := by
        rw [hkeys, List.nodup_append]
        exact ⟨hd, List.nodup_singleton _, by simpa using hmem⟩
      obtain ⟨h1, h2⟩ := ih (resolveObs pyStr d ob) hd'
      rw [List.foldl_cons]
      refine ⟨h1, fun key => ?_⟩
      rw [h2 key, hkeys, List.map_cons, List.mem_cons, List.mem_append, List.mem_singleton]
      constructor
      · intro hh
        rcases hh with (hh | hh) | hh
        · exact Or.inl hh
        · exact Or.inr (Or.inl hh)
        · exact Or.inr (Or.inr hh)
      · intro hh
        rcases hh with hh | hh | hh
        · exact Or.inl (Or.inl hh)
        · exact Or.inl (Or.inr hh)
        · exact Or.inr hh

theorem prioritize_step_mem (pyStr : ℚ → String) (cur v : ℚ) :
    prioritize_step pyStr cur v = v ∨ prioritize_step pyStr cur v = cur := by
  rw [prioritize_step]
  split_ifs
  · exact Or.inl rfl
  · exact Or.inl rfl
  · rcases min_choice cur v with h | h
    · exact Or.inr h
    · exact Or.inl h
  · exact Or.inl rfl
  · exact Or.inl rfl
  · exact Or.inr rfl

theorem foldl_resolveObs_lookup (pyStr : ℚ → String) :
    ∀ (obs d : List (String × ℚ)) (fn : String) (v : ℚ),
      dictGet? (obs.foldl (resolveObs pyStr) d) fn = some v →
      dictGet? d fn = some v ∨ (fn, v) ∈ obs := by
  intro obs
  induction obs with
  | nil => intro d fn v h; exact Or.inl h
  | cons ob rest ih =>
    intro d fn v h
    rw [List.foldl_cons] at h
    rcases ih _ fn v h with h1 | h1
    · obtain ⟨gn, w⟩ := ob
      rw [resolveObs] at h1
      cases hg : dictGet? d gn with
      | none =>
        rw [show dictGet? d (gn, w).1 = none from hg] at h1
        rw [dictGet?_dictInsert] at h1
        split_ifs at h1 with he
        · have hv : w = v := by injection h1
          refine Or.inr (List.mem_cons.mpr (Or.inl ?_))
          rw [← he, ← hv]
        · exact Or.inl h1
      | some cur =>
        rw [show dictGet? d (gn, w).1 = some cur from hg] at h1
        rw [dictGet?_dictInsert] at h1
        split_ifs at h1 with he
        · have hv : prioritize_step pyStr cur w = v := by injection h1
          rcases prioritize_step_mem pyStr cur w with hs | hs
          · refine Or.inr (List.mem_cons.mpr (Or.inl ?_))
            rw [← he, ← hv, hs]
          · refine Or.inl ?_
            rw [← he, hg, hv.symm, hs]
        · exact Or.inl h1
    · exact Or.inr (List.mem_cons_of_mem _ h1)

/-- C1: the specification claims that a parenthesized EPS mention such as
the 0.40 in the scenario text is normalized to a negative candidate and that
extract returns -0.40 there.  The code cannot do this: every capture group is
the bare numeral without the surrounding parentheses, so the replacement of
an opening parenthesis on line 35 never fires.  This theorem evaluates the
code at the scenario: the negative candidate set is empty, the candidates are
1.25 and 0.40 repeated across the overlapping patterns, and extract returns
positive 0.40 rather than -0.40. -/
theorem C1_extract_on_spec_scenario :
    negative_eps_values
        "Diluted EPS was $1.25 per share, compared to a loss per share of $(0.40) last year." =
        [] ∧
      epsCandidates
        "Diluted EPS was $1.25 per share, compared to a loss per share of $(0.40) last year." =
        [mkRat 5 4, mkRat 2 5, mkRat 5 4, mkRat 2 5, mkRat 5 4, mkRat 2 5] ∧
      extract_eps_value
        "Diluted EPS was $1.25 per share, compared to a loss per share of $(0.40) last year." =
        some (mkRat 2 5) :=
  ⟨by decide, by decide, by decide⟩

/-- C2: the resolver is a left-to-right fold in which an unseen id stores its
value and a seen id is updated by the first matching rule of the priority
list of section 4.2; consequently the fold is order-sensitive, as the two
concrete observation orders show.  The stringification of a float is a
Python builtin, modelled by an arbitrary function whose lowercased output
never contains a space. -/
theorem C2_resolver_priority_fold :
    (∀ (pyStr : ℚ → String) (obs : List (String × ℚ)),
        (∀ ob ∈ obs, ' ' ∉ lowerChars (pyStr ob.2)) →
        prioritize_eps_values pyStr obs = resolveSpec obs) ∧
      prioritize_eps_values strModel [("A", mkRat 3 2), ("A", mkRat (-1) 10)] =
        [("A", mkRat (-1) 10)] ∧
      prioritize_eps_values strModel [("A", mkRat (-1) 10), ("A", mkRat 3 2)] =
        [("A", mkRat 3 2)] :=
  ⟨fun pyStr obs h => foldl_resolveObs_eq_spec pyStr obs [] h, by decide, by decide⟩

/-- Witness for C2: the fold equality instantiated at a concrete
stringification and a concrete observation list. -/
theorem C2_resolver_priority_fold_witness :
    prioritize_eps_values strModel [("B", 1), ("B", 2)] = resolveSpec [("B", 1), ("B", 2)] :=
  C2_resolver_priority_fold.1 strModel [("B", 1), ("B", 2)] (by decide)

/-- C3: whenever extraction produces a nonempty nonnegative candidate list
and a nonempty negative candidate list, extract returns the minimum p of the
nonnegative ones if its absolute value is strictly below that of the maximum
n of the negative ones, and n otherwise; in particular a tie in absolute
value returns the negative candidate.  The pymin and pymax conjuncts state
that they really are the extremal values of the lists. -/
theorem C3_both_sets_reduction (text : String) (p n : ℚ) (ps ns : List ℚ)
    (hp : positive_eps_values text = p :: ps) (hn : negative_eps_values text = n :: ns) :
    (extract_eps_value text =
        if |pymin p ps| < |pymax n ns| then some (pymin p ps) else some (pymax n ns)) ∧
      (|pymin p ps| = |pymax n ns| → extract_eps_value text = some (pymax n ns)) ∧
      (pymin p ps ∈ p :: ps ∧ ∀ x ∈ p :: ps, pymin p ps ≤ x) ∧
      (pymax n ns ∈ n :: ns ∧ ∀ x ∈ n :: ns, x ≤ pymax n ns) := by
  have he : extract_eps_value text =
      if |pymin p ps| < |pymax n ns| then some (pymin p ps) else some (pymax n ns) := by
    simp only [extract_eps_value]
    rw [hp, hn]
  refine ⟨he, fun htie => ?_, ⟨pymin_mem ps p, pymin_le ps p⟩, ⟨pymax_mem ns n, le_pymax ns n⟩⟩
  rw [he, if_neg (by rw [htie]; exact lt_irrefl _)]

/-- Witness for C3: a text with one positive and one negative mention, where
the negative one is closer to zero and is returned. -/
theorem C3_both_sets_reduction_witness :
    extract_eps_value "EPS 2 loss per share -1" = some (-1) := by
  have h := C3_both_sets_reduction "EPS 2 loss per share -1" 2 (-1) [2, 2] [-1, -1]
    (by decide) (by decide)
  rw [h.1]
  decide

/-- C4: the branch of the resolver that looks for "net eps" or "total eps"
inside the stringified numeric value never executes: the string form of a
float never contains a space, so neither needle can occur in it, the guard is
false, and the update step equals the step with the branch removed (the
specification's five rules). -/
theorem C4_dead_branch_unreachable :
    (∀ s : String, ' ' ∉ lowerChars s → deadGuard s = false) ∧
      ∀ (pyStr : ℚ → String) (cur v : ℚ), ' ' ∉ lowerChars (pyStr v) →
        prioritize_step pyStr cur v = resolveSpecStep cur v :=
  ⟨deadGuard_eq_false, fun pyStr cur v h => prioritize_step_eq_spec pyStr cur v h⟩

/-- Witness for C4: the guard is false on a concrete float string, and the
step equality holds at concrete values that do reach the dead branch's
position in the if chain. -/
theorem C4_dead_branch_unreachable_witness :
    deadGuard "0.4" = false ∧
      prioritize_step strModel (mkRat (-1) 2) (mkRat (-3) 2) =
        resolveSpecStep (mkRat (-1) 2) (mkRat (-3) 2) :=
  ⟨C4_dead_branch_unreachable.1 "0.4" (by decide),
    C4_dead_branch_unreachable.2 strModel (mkRat (-1) 2) (mkRat (-3) 2) (by decide)⟩

/-- C5: a text in which no pattern produces any candidate makes extract
return none, a normal absent outcome; and a document whose extraction is
absent contributes no observation to the resolver input built by
parse_8k_files. -/
theorem C5_no_candidates_absent :
    (∀ text : String, epsCandidates text = [] → extract_eps_value text = none) ∧
      ∀ (fn text : String) (rest : List (String × String)),
        extract_eps_value text = none →
        parse_8k_files ((fn, text) :: rest) = parse_8k_files rest := by
  constructor
  · intro text h
    have hp : positive_eps_values text = [] := by
      rw [positive_eps_values, h]
      rfl
    have hn : negative_eps_values text = [] := by
      rw [negative_eps_values, h]
      rfl
    simp only [extract_eps_value]
    rw [hp, hn]
  · intro fn text rest h
    simp only [parse_8k_files, h]

/-- Witness for C5: a candidate-free text yields none and is dropped from
the parsed observations. -/
theorem C5_no_candidates_absent_witness :
    extract_eps_value "No figures here." = none ∧
      parse_8k_files [("a.html", "No figures here.")] = [] := by
  have h1 := C5_no_candidates_absent.1 "No figures here." (by decide)
  refine ⟨h1, ?_⟩
  rw [C5_no_candidates_absent.2 "a.html" "No figures here." [] h1]
  rfl

/-- C6: when only one sign class of candidates is present, extract returns
that list's extremal value: the minimum of the nonnegative candidates, or the
maximum (closest to zero) of the negative candidates. -/
theorem C6_single_sign_extremal (text : String) :
    (∀ (p : ℚ) (ps : List ℚ), positive_eps_values text = p :: ps →
        negative_eps_values text = [] →
        extract_eps_value text = some (pymin p ps) ∧ pymin p ps ∈ p :: ps ∧
          ∀ x ∈ p :: ps, pymin p ps ≤ x) ∧
      ∀ (n : ℚ) (ns : List ℚ), positive_eps_values text = [] →
        negative_eps_values text = n :: ns →
        extract_eps_value text = some (pymax n ns) ∧ pymax n ns ∈ n :: ns ∧
          ∀ x ∈ n :: ns, x ≤ pymax n ns := by
  constructor
  · intro p ps hp hn
    refine ⟨?_, pymin_mem ps p, pymin_le ps p⟩
    simp only [extract_eps_value]
    rw [hp, hn]
  · intro n ns hp hn
    refine ⟨?_, pymax_mem ns n, le_pymax ns n⟩
    simp only [extract_eps_value]
    rw [hp, hn]

/-- Witness for C6: a text with only positive candidates returns their
minimum, a text with only negative candidates returns their maximum. -/
theorem C6_single_sign_extremal_witness :
    extract_eps_value "EPS 2" = some 2 ∧ extract_eps_value "EPS -3" = some (-3) := by
  constructor
  · have h := (C6_single_sign_extremal "EPS 2").1 2 [2, 2] (by decide) (by decide)
    rw [h.1]
    decide
  · have h := (C6_single_sign_extremal "EPS -3").2 (-3) [-3, -3] (by decide) (by decide)
    rw [h.1]
    decide

/-- C7: the resolver's result has exactly one entry per distinct id seen: its
key list is duplicate-free and a key occurs in it exactly when it occurs
among the observation ids, for every stringification and observation
sequence. -/
theorem C7_exactly_one_value_per_id (pyStr : ℚ → String) (obs : List (String × ℚ)) :
    ((prioritize_eps_values pyStr obs).map Prod.fst).Nodup ∧
      ∀ key : String, key ∈ (prioritize_eps_values pyStr obs).map Prod.fst ↔
        key ∈ obs.map Prod.fst := by
  obtain ⟨h1, h2⟩ := foldl_resolveObs_keys pyStr obs [] List.nodup_nil
  refine ⟨h1, fun key => ?_⟩
  have h3 := h2 key
  simpa [prioritize_eps_values] using h3

/-- C8: every mapping entry is emitted under the header row as its id with
the value rendered at two fixed decimal places, negatives as the absolute
value wrapped in parentheses; the rendering always has exactly two digits
after the decimal point, and 1.2 and -1.23 format as 1.20 and (1.23). -/
theorem C8_output_rows :
    (∀ (evs : List (String × ℚ)) (fn : String) (v : ℚ), (fn, v) ∈ evs →
        (if 0 ≤ v then [fn, formatFixed2 v] else [fn, "(" ++ formatFixed2 |v| ++ ")"]) ∈
          write_to_csv evs) ∧
      (∀ evs : List (String × ℚ), (write_to_csv evs).head? = some ["Filename", "EPS"]) ∧
      (∀ q : ℚ, ∃ s t : String, formatFixed2 q = s ++ "." ++ t ∧ t.length = 2) ∧
      write_to_csv [("a.html", mkRat 6 5)] = [["Filename", "EPS"], ["a.html", "1.20"]] ∧
      write_to_csv [("b.html", mkRat (-123) 100)] =
        [["Filename", "EPS"], ["b.html", "(1.23)"]] := by
  refine ⟨?_, fun evs => rfl, fun q => ⟨_, _, rfl, rfl⟩, by decide, by decide⟩
  intro evs fn v hmem
  rw [write_to_csv]
  apply List.mem_cons_of_mem
  have h := List.mem_map_of_mem (fun ob : String × ℚ =>
    if 0 ≤ ob.2 then [ob.1, formatFixed2 ob.2]
    else [ob.1, "(" ++ formatFixed2 |ob.2| ++ ")"]) hmem
  simpa using h

/-- Witness for C8: the row membership fact instantiated at a concrete
mapping entry. -/
theorem C8_output_rows_witness :
    (if 0 ≤ mkRat 6 5 then ["c.html", formatFixed2 (mkRat 6 5)]
      else ["c.html", "(" ++ formatFixed2 |mkRat 6 5| ++ ")"]) ∈
      write_to_csv [("c.html", mkRat 6 5)] :=
  C8_output_rows.1 [("c.html", mkRat 6 5)] "c.html" (mkRat 6 5) (by decide)

/-- C9: when an observation with a negative value arrives for an id whose
stored value is nonnegative, the stored value is replaced by the new negative
value whatever the magnitudes: either the closer-to-zero rule or the
negative-over-nonnegative rule fires, and no keep-current outcome exists. -/
theorem C9_negative_replaces_nonnegative (pyStr : ℚ → String) (d : List (String × ℚ))
    (fn : String) (v cur : ℚ) (hget : dictGet? d fn = some cur) (hv : v < 0)
    (hcur : 0 ≤ cur) :
    dictGet? (resolveObs pyStr d (fn, v)) fn = some v := by
  have hstep : prioritize_step pyStr cur v = v := by
    rw [prioritize_step]
    split_ifs with h1 h2 h3 h4 h5
    · rfl
    · rfl
    · exact absurd h3.1 (not_le.mpr hv)
    · rfl
    · rfl
    · exact absurd ⟨hv, hcur⟩ h5
  simp only [resolveObs, hget]
  rw [dictGet?_dictInsert, if_pos rfl, hstep]

/-- Witness for C9: a negative observation with larger magnitude than the
stored positive value still replaces it. -/
theorem C9_negative_replaces_nonnegative_witness :
    dictGet? (resolveObs strModel [("A", 2)] ("A", -3)) "A" = some (-3) :=
  C9_negative_replaces_nonnegative strModel [("A", 2)] "A" (-3) 2 (by decide) (by decide)
    (by decide)

/-- C10: every value in the resolver's result was literally one of the
observations for its id: each updating branch stores either the incoming
value or the previously stored one, so no new number is ever synthesized. -/
theorem C10_resolved_value_is_observed (pyStr : ℚ → String) (obs : List (String × ℚ))
    (fn : String) (v : ℚ) (h : dictGet? (prioritize_eps_values pyStr obs) fn = some v) :
    (fn, v) ∈ obs := by
  rcases foldl_resolveObs_lookup pyStr obs [] fn v h with h1 | h1
  · simp [dictGet?] at h1
  · exact h1

/-- Witness for C10: the resolved value of a concrete observation list is one
of its observations. -/
theorem C10_resolved_value_is_observed_witness : ("A", (2 : ℚ)) ∈ [("A", (2 : ℚ))] :=
  C10_resolved_value_is_observed strModel [("A", 2)] "A" 2 (by decide)
